import Mathlib

/-!
Verification of the cross-platform price-comparison pipeline
(`examples/cross-platform-price-comparison.py`).

The Python program is shallowly embedded: scalar Python values become the
inductive `PyVal` (numbers are modelled exactly by integers/rationals rather
than IEEE floats), code that may raise returns `PyResult`, and each Python
function is translated into a Lean definition of the same name.
-/

namespace PriceComp

/-- A scalar Python value as it appears in a raw scraped item: `None`, a
string, or an integer. -/
inductive PyVal where
  | vNone
  | vStr (s : String)
  | vInt (n : ℤ)
deriving DecidableEq

/-- Python truthiness of a scalar: `None`, `""` and `0` are falsy. -/
def truthy : PyVal → Bool
  | .vNone => false
  | .vStr s => s ≠ ""
  | .vInt n => n ≠ 0

/-- Python `str()` projection of a scalar value. -/
def pyStr : PyVal → String
  | .vNone => "None"
  | .vStr s => s
  | .vInt n => toString n

/-- The exceptions the embedded fragment can raise. -/
inductive PyErr where
  | valueError
  | fetchError
deriving DecidableEq

/-- Result of running a piece of Python code that may raise. -/
inductive PyResult (α : Type) where
  | ok (a : α)
  | exn (e : PyErr)
deriving DecidableEq

/-- ASCII whitespace, as matched by the regex class in the source. -/
def pyIsSpace (c : Char) : Bool :=
  c = ' ' || c = '\t' || c = '\n' || c = '\r' || c = '\x0b' || c = '\x0c'

/-- Characters matched by the character class of digits and a literal dot. -/
def isDigitDot (c : Char) : Bool :=
  c.isDigit || c = '.'

/-- `str.replace(",", "")`: drop every comma. -/
def stripCommas (l : List Char) : List Char :=
  l.filter (fun c => c ≠ ',')

/-- First match of the currency pattern (a dollar sign, optional whitespace,
then a maximal nonempty run of digits and dots), returning the captured run.
The search retries at the next position when a dollar sign is not followed by
such a run, exactly like the regex search in the source. -/
def findDollarTok : List Char → Option (List Char)
  | [] => none
  | c :: rest =>
    if c = '$' then
      let tok := (rest.dropWhile pyIsSpace).takeWhile isDigitDot
      if tok.isEmpty then findDollarTok rest else some tok
    else findDollarTok rest

/-- First match of the bare numeric pattern: the first maximal run of digits
and dots in the text. -/
def findBareTok : List Char → Option (List Char)
  | [] => none
  | c :: rest =>
    if isDigitDot c then some (c :: rest.takeWhile isDigitDot)
    else findBareTok rest

/-- Value of a string of decimal digits. -/
def natOfDigits (l : List Char) : ℕ :=
  l.foldl (fun a c => 10 * a + (c.toNat - 48)) 0

/-- Integer part, fractional part and fractional length of a `float` token.
Python `float(tok)` on a token drawn from the digits-and-dot class succeeds
exactly when the token is nonempty, has at most one dot and at least one
digit; tokens such as `"."` or `"1.2.3"` raise `ValueError` (`none` here). -/
def pyFloatParts (tok : List Char) : Option (ℕ × ℕ × ℕ) :=
  if tok.isEmpty || !tok.all isDigitDot || tok.count '.' > 1 || !tok.any Char.isDigit then
    none
  else
    let ip := tok.takeWhile (fun c => c ≠ '.')
    let fp := (tok.dropWhile (fun c => c ≠ '.')).drop 1
    some (natOfDigits ip, natOfDigits fp, fp.length)

/-- Python `float(tok)` on a token drawn from the digits-and-dot class,
returning the exact decimal value (modelled in ℚ). -/
def pyFloat (tok : List Char) : Option ℚ :=
  (pyFloatParts tok).map (fun p => (p.1 : ℚ) + (p.2.1 : ℚ) / (10 : ℚ) ^ p.2.2)

/-- The fixed conversion constant (`CNY_TO_USD = 0.14`), modelled exactly. -/
def CNY_TO_USD : ℚ := 14 / 100

/-- `parse_min_price`: extract the lowest numeric USD price from a price
value. Falsy input yields absence; otherwise the comma-stripped text
projection is searched first for a currency-marked number (returned
unconverted) and then for a bare number (multiplied by `CNY_TO_USD`). A
matched token that `float` rejects raises `ValueError`. -/
def parse_min_price (raw : PyVal) : PyResult (Option ℚ) :=
  if truthy raw = false then .ok none
  else
    match findDollarTok (stripCommas (pyStr raw).data) with
    | some tok =>
      match pyFloat tok with
      | some q => .ok (some q)
      | none => .exn .valueError
    | none =>
      match findBareTok (stripCommas (pyStr raw).data) with
      | some tok =>
        match pyFloat tok with
        | some q => .ok (some (q * CNY_TO_USD))
        | none => .exn .valueError
      | none => .ok none

/-- Evaluation rule for the currency-marked branch of the extractor. -/
theorem parse_min_price_dollar (raw : PyVal) (tok : List Char) (q : ℚ)
    (ht : truthy raw = true)
    (hd : findDollarTok (stripCommas (pyStr raw).data) = some tok)
    (hf : pyFloat tok = some q) :
    parse_min_price raw = .ok (some q) := by
  unfold parse_min_price
  rw [ht]
  simp only [Bool.true_eq_false, if_false, hd, hf]

/-- Evaluation rule for the bare-number branch of the extractor. -/
theorem parse_min_price_bare (raw : PyVal) (tok : List Char) (q : ℚ)
    (ht : truthy raw = true)
    (hd : findDollarTok (stripCommas (pyStr raw).data) = none)
    (hb : findBareTok (stripCommas (pyStr raw).data) = some tok)
    (hf : pyFloat tok = some q) :
    parse_min_price raw = .ok (some (q * CNY_TO_USD)) := by
  unfold parse_min_price
  rw [ht]
  simp only [Bool.true_eq_false, if_false, hd, hb, hf]

/-- Evaluation rule for a currency-marked token that `float` rejects. -/
theorem parse_min_price_dollar_bad (raw : PyVal) (tok : List Char)
    (ht : truthy raw = true)
    (hd : findDollarTok (stripCommas (pyStr raw).data) = some tok)
    (hf : pyFloat tok = none) :
    parse_min_price raw = .exn .valueError := by
  unfold parse_min_price
  rw [ht]
  simp only [Bool.true_eq_false, if_false, hd, hf]

/-- Evaluation rule for `pyFloat` from decidable parts. -/
theorem pyFloat_eval (tok : List Char) (a b k : ℕ)
    (h : pyFloatParts tok = some (a, b, k)) :
    pyFloat tok = some ((a : ℚ) + (b : ℚ) / (10 : ℚ) ^ k) := by
  simp [pyFloat, h]

example : parse_min_price (.vStr "$12.50") = .ok (some (25/2)) := by
  have h : pyFloat "12.50".data = some ((12 : ℚ) + (50 : ℚ) / (10 : ℚ) ^ 2) :=
    pyFloat_eval _ 12 50 2 (by decide)
  rw [parse_min_price_dollar (.vStr "$12.50") "12.50".data _ (by decide) (by decide) h]
  norm_num
example : parse_min_price (.vStr "99.00") = .ok (some (1386/100)) := by
  have h : pyFloat "99.00".data = some ((99 : ℚ) + (0 : ℚ) / (10 : ℚ) ^ 2) :=
    pyFloat_eval _ 99 0 2 (by decide)
  rw [parse_min_price_bare (.vStr "99.00") "99.00".data _ (by decide) (by decide) (by decide) h]
  norm_num [CNY_TO_USD]
example : parse_min_price (.vStr "") = .ok none := by decide
example : parse_min_price (.vStr "Contact supplier") = .ok none := by decide
example : parse_min_price (.vStr ".") = .exn .valueError := by decide
example : parse_min_price (.vStr "$1.2.3") = .exn .valueError := by decide
example : parse_min_price .vNone = .ok none := by decide
example : parse_min_price (.vInt 0) = .ok none := by decide

/-- A raw scraped item: an open mapping from string keys to scalar values,
modelled as an association list (first binding wins, as in a dict). -/
def RawItem : Type := List (String × PyVal)

/-- `item.get(k)`: the value bound to `k`, or `None` when the key is absent. -/
def itemGet (item : RawItem) (k : String) : PyVal :=
  (List.lookup k item).getD .vNone

/-- `item.get(k, d)`: the value bound to `k`, or the default `d`. -/
def itemGetD (item : RawItem) (k : String) (d : PyVal) : PyVal :=
  (List.lookup k item).getD d

/-- Python `a or b` on scalar values: `a` when truthy, else `b`. -/
def pyOr (a b : PyVal) : PyVal :=
  if truthy a then a else b

/-- The uniform product record built by the normalization loop. -/
structure Rec where
  platform : String
  name : PyVal
  price : PyVal
  minPrice : Option ℚ
  moq : PyVal
  supplier : PyVal
  url : PyVal
deriving DecidableEq

/-- The placeholder sentinel used for missing MOQ and supplier fields. -/
def sentinel : PyVal := .vStr "—"

/-- Body of the normalization loop in `run_scraper`: one raw item becomes one
uniform record; the price field is extracted via `parse_min_price`, which may
raise. -/
def normalizeItem (platformName : String) (item : RawItem) : PyResult Rec :=
  match parse_min_price (itemGetD item "price" (.vStr "")) with
  | .exn e => .exn e
  | .ok mp => .ok
      { platform := platformName
        name := pyOr (itemGet item "productName") (pyOr (itemGet item "title") (.vStr ""))
        price := itemGetD item "price" (.vStr "")
        minPrice := mp
        moq := pyOr (itemGet item "moq") (pyOr (itemGet item "minOrder") sentinel)
        supplier := pyOr (itemGet item "supplierNa") (pyOr (itemGet item "seller") sentinel)
        url := pyOr (itemGet item "productUrl") (pyOr (itemGet item "url") (.vStr "")) }

/-- Run a list of fallible steps in order, stopping at the first exception,
as the Python `for` loop over items does. -/
def mapPyResult (f : α → PyResult β) : List α → PyResult (List β)
  | [] => .ok []
  | x :: xs =>
    match f x with
    | .exn e => .exn e
    | .ok y =>
      match mapPyResult f xs with
      | .exn e => .exn e
      | .ok ys => .ok (y :: ys)

/-- The `ACTORS` registry: source key and display name, in definition order
(the call parameters are irrelevant to the verified properties). -/
def ACTORS : List (String × String) :=
  [("yiwugo", "Yiwugo"), ("dhgate", "DHgate"), ("mic", "Made-in-China")]

/-- Keys of the registry, in iteration order. -/
def ACTOR_KEYS : List String := ACTORS.map Prod.fst

/-- `ACTORS[key]["name"]`. -/
def actorName (key : String) : String :=
  (List.lookup key ACTORS).getD ""

/-- `run_scraper`: invoke the abstract source runner for one key and
normalize every returned raw item, in order. The runner models the external
actor call plus dataset iteration and may fail; normalization itself may also
raise (through `parse_min_price`). -/
def run_scraper (runner : String → PyResult (List RawItem)) (key : String) :
    PyResult (List Rec) :=
  match runner key with
  | .exn e => .exn e
  | .ok items => mapPyResult (normalizeItem (actorName key)) items

/-- The aggregation loop of `main` over a list of source keys: successes are
appended to the merged collection, failures are recorded per source and never
abort the remaining sources. -/
def aggregateOver (runner : String → PyResult (List RawItem)) :
    List String → List Rec × List (String × PyErr)
  | [] => ([], [])
  | k :: ks =>
    let rest := aggregateOver runner ks
    match run_scraper runner k with
    | .ok recs => (recs ++ rest.1, rest.2)
    | .exn e => (rest.1, (k, e) :: rest.2)

/-- The aggregation loop of `main` over the full registry. -/
def aggregate (runner : String → PyResult (List RawItem)) :
    List Rec × List (String × PyErr) :=
  aggregateOver runner ACTOR_KEYS

/-- Records contributed by one source: its normalized items on success,
nothing on failure. -/
def contribution (runner : String → PyResult (List RawItem)) (k : String) :
    List Rec :=
  match run_scraper runner k with
  | .ok recs => recs
  | .exn _ => []

/-- Error recorded for one source, if any. -/
def errorOf (runner : String → PyResult (List RawItem)) (k : String) :
    Option (String × PyErr) :=
  match run_scraper runner k with
  | .ok _ => none
  | .exn e => some (k, e)

/-- The aggregation loop computes, in registry order, the concatenation of
per-source contributions and the list of per-source errors. -/
theorem aggregateOver_eq (runner : String → PyResult (List RawItem))
    (ks : List String) :
    aggregateOver runner ks =
      (ks.flatMap (contribution runner), ks.filterMap (errorOf runner)) := by
  induction ks with
  | nil => rfl
  | cons k ks ih =>
    simp only [aggregateOver, ih, List.flatMap_cons, List.filterMap_cons,
      contribution, errorOf]
    cases run_scraper runner k <;> simp

/-- The sort key of `merged.sort`: `(p["minPrice"] is None, p["minPrice"] or 0)`.
For a present price `q` the second component is `q` (Python `q or 0` is
numerically `q`, also at `q = 0`); for an absent price it is `0`. -/
def sortKey (r : Rec) : Bool × ℚ :=
  (r.minPrice.isNone, r.minPrice.getD 0)

/-- Lexicographic comparison of sort keys, with `False < True` on the first
component as in Python tuple ordering. -/
def keyLeB (a b : Rec) : Bool :=
  (!(sortKey a).1 && (sortKey b).1) ||
    (((sortKey a).1 == (sortKey b).1) && decide ((sortKey a).2 ≤ (sortKey b).2))

/-- Stable insertion of a record into an already sorted list: the record goes
before the first element it compares `≤` to, hence before later-inserted
equal keys and after earlier ones. -/
def insertRec (x : Rec) : List Rec → List Rec
  | [] => [x]
  | y :: ys => if keyLeB x y then x :: y :: ys else y :: insertRec x ys

/-- The stable sort of `merged.sort(key=...)`, modelled as insertion sort
(Python's sort is stable and compares only the key). -/
def sortRecs : List Rec → List Rec
  | [] => []
  | x :: xs => insertRec x (sortRecs xs)

theorem keyLeB_total (a b : Rec) : keyLeB a b = true ∨ keyLeB b a = true := by
  unfold keyLeB
  rcases le_total (sortKey a).2 (sortKey b).2 with h | h <;>
    cases ha : (sortKey a).1 <;> cases hb : (sortKey b).1 <;> simp [h]

theorem keyLeB_of_eq_key (a b : Rec) (h : sortKey a = sortKey b) :
    keyLeB a b = true := by
  unfold keyLeB
  rw [h]
  simp

theorem key_ne_of_not_keyLeB (a b : Rec) (h : keyLeB a b = false) :
    sortKey a ≠ sortKey b := by
  intro he
  rw [keyLeB_of_eq_key a b he] at h
  simp at h

/-- The head of an insertion is the inserted element or the old head. -/
theorem insertRec_head_cases (x : Rec) (l : List Rec) :
    (insertRec x l).head? = some x ∨ (insertRec x l).head? = l.head? := by
  cases l with
  | nil => left; rfl
  | cons y ys =>
    unfold insertRec
    by_cases h : keyLeB x y = true
    · left; simp [h]
    · right; simp [h]

theorem chain'_insertRec (x : Rec) (l : List Rec)
    (h : List.Chain' (fun a b => keyLeB a b = true) l) :
    List.Chain' (fun a b => keyLeB a b = true) (insertRec x l) := by
  induction l with
  | nil => simp [insertRec]
  | cons y ys ih =>
    unfold insertRec
    by_cases hxy : keyLeB x y = true
    · simp only [hxy, if_true]
      exact List.chain'_cons'.mpr ⟨fun z hz => by simp_all, h⟩
    · simp only [hxy, if_false]
      have hys := (List.chain'_cons'.mp h).2
      have hy := (List.chain'_cons'.mp h).1
      refine List.chain'_cons'.mpr ⟨?_, ih hys⟩
      intro z hz
      rcases insertRec_head_cases x ys with he | he
      · rw [he] at hz
        have hzx : x = z := by simpa using hz
        subst hzx
        rcases keyLeB_total x y with ht | ht
        · exact absurd ht hxy
        · exact ht
      · rw [he] at hz
        exact hy z hz

theorem chain'_sortRecs (l : List Rec) :
    List.Chain' (fun a b => keyLeB a b = true) (sortRecs l) := by
  induction l with
  | nil => simp [sortRecs]
  | cons x xs ih => exact chain'_insertRec x (sortRecs xs) ih

theorem sortRecs_perm (l : List Rec) : (sortRecs l).Perm l := by
  induction l with
  | nil => rfl
  | cons x xs ih =>
    have hi : ∀ m : List Rec, (insertRec x m).Perm (x :: m) := by
      intro m
      induction m with
      | nil => rfl
      | cons y ys ihm =>
        unfold insertRec
        by_cases h : keyLeB x y = true
        · simp [h]
        · simp only [h, if_false]
          exact (ihm.cons y).trans (List.Perm.swap x y ys)
    exact (hi (sortRecs xs)).trans (ih.cons x)

/-- Stability of insertion: elements skipped on the way in have a strictly
smaller key, so each key-class subsequence is preserved. -/
theorem filter_insertRec (x : Rec) (l : List Rec) (k : Bool × ℚ) :
    (insertRec x l).filter (fun r => decide (sortKey r = k)) =
      if sortKey x = k then
        x :: l.filter (fun r => decide (sortKey r = k))
      else l.filter (fun r => decide (sortKey r = k)) := by
  induction l with
  | nil =>
    by_cases h : sortKey x = k <;> simp [insertRec, List.filter, h]
  | cons y ys ih =>
    unfold insertRec
    by_cases hxy : keyLeB x y = true
    · by_cases h : sortKey x = k <;> simp [hxy, List.filter_cons, h]
    · have hne : sortKey x ≠ sortKey y :=
        key_ne_of_not_keyLeB x y (Bool.not_eq_true _ ▸ eq_false_of_ne_true hxy)
      by_cases h : sortKey x = k
      · have hy : ¬ sortKey y = k := fun hk => hne (h.trans hk.symm)
        simp [hxy, List.filter_cons, h, hy, ih]
      · by_cases hy : sortKey y = k <;> simp [hxy, List.filter_cons, h, hy, ih]

theorem filter_sortRecs (l : List Rec) (k : Bool × ℚ) :
    (sortRecs l).filter (fun r => decide (sortKey r = k)) =
      l.filter (fun r => decide (sortKey r = k)) := by
  induction l with
  | nil => rfl
  | cons x xs ih =>
    by_cases h : sortKey x = k <;>
      simp [sortRecs, filter_insertRec, h, List.filter_cons, ih]

/-- The fixed platform list the summary section iterates over. -/
def SUMMARY_PLATFORMS : List String := ["Yiwugo", "DHgate", "Made-in-China"]

/-- Records of the merged collection belonging to one platform. -/
def platItems (merged : List Rec) (plat : String) : List Rec :=
  merged.filter (fun r => r.platform == plat)

/-- The present prices of one platform's records. -/
def platPrices (merged : List Rec) (plat : String) : List ℚ :=
  (platItems merged plat).filterMap (fun r => r.minPrice)

/-- Python `min` over a nonempty list (the empty case is never reached by the
summary code; `0` is an arbitrary value for it). -/
def listMin : List ℚ → ℚ
  | [] => 0
  | x :: xs => xs.foldl min x

/-- Python `max` over a nonempty list. -/
def listMax : List ℚ → ℚ
  | [] => 0
  | x :: xs => xs.foldl max x

/-- One line of the per-platform summary: either the `no results` line, or a
product count together with optional price statistics (minimum, maximum,
mean); `none` statistics render as the sentinel dashes. -/
inductive PlatSummary where
  | noResults
  | line (count : ℕ) (stats : Option (ℚ × ℚ × ℚ))
deriving DecidableEq

/-- The per-platform summary computed by `print_table` for one platform. -/
def platformSummary (merged : List Rec) (plat : String) : PlatSummary :=
  let items := platItems merged plat
  let prices := platPrices merged plat
  if items.isEmpty then .noResults
  else
    .line items.length
      (if prices.isEmpty then none
       else some (listMin prices, listMax prices, prices.sum / prices.length))

theorem foldl_min_mem (a : ℚ) (l : List ℚ) : l.foldl min a ∈ a :: l := by
  induction l generalizing a with
  | nil => simp
  | cons y ys ih =>
    simp only [List.foldl_cons]
    rcases min_choice a y with h | h
    · rcases List.mem_cons.mp (ih (min a y)) with h' | h'
      · rw [h', h]
        exact List.mem_cons_self _ _
      · exact List.mem_cons_of_mem _ (List.mem_cons_of_mem _ h')
    · rcases List.mem_cons.mp (ih (min a y)) with h' | h'
      · rw [h', h]
        exact List.mem_cons_of_mem _ (List.mem_cons_self _ _)
      · exact List.mem_cons_of_mem _ (List.mem_cons_of_mem _ h')

theorem foldl_min_le_init (a : ℚ) (l : List ℚ) : l.foldl min a ≤ a := by
  induction l generalizing a with
  | nil => simp
  | cons y ys ih =>
    simp only [List.foldl_cons]
    exact le_trans (ih (min a y)) (min_le_left _ _)

theorem foldl_min_le (a : ℚ) (l : List ℚ) : ∀ y ∈ l, l.foldl min a ≤ y := by
  induction l generalizing a with
  | nil => simp
  | cons z zs ih =>
    intro y hy
    simp only [List.foldl_cons]
    rcases List.mem_cons.mp hy with h | h
    · subst h
      exact le_trans (foldl_min_le_init _ _) (min_le_right _ _)
    · exact ih (min a z) y h

theorem listMin_mem (x : ℚ) (xs : List ℚ) : listMin (x :: xs) ∈ x :: xs :=
  foldl_min_mem x xs

theorem listMin_le (x : ℚ) (xs : List ℚ) :
    ∀ y ∈ x :: xs, listMin (x :: xs) ≤ y := by
  intro y hy
  rcases List.mem_cons.mp hy with h | h
  · subst h
    exact foldl_min_le_init y xs
  · exact foldl_min_le x xs y h

theorem le_foldl_max_init (a : ℚ) (l : List ℚ) : a ≤ l.foldl max a := by
  induction l generalizing a with
  | nil => simp
  | cons y ys ih =>
    simp only [List.foldl_cons]
    exact le_trans (le_max_left _ _) (ih (max a y))

theorem foldl_max_mem (a : ℚ) (l : List ℚ) : l.foldl max a ∈ a :: l := by
  induction l generalizing a with
  | nil => simp
  | cons y ys ih =>
    simp only [List.foldl_cons]
    rcases max_choice a y with h | h
    · rcases List.mem_cons.mp (ih (max a y)) with h' | h'
      · rw [h', h]
        exact List.mem_cons_self _ _
      · exact List.mem_cons_of_mem _ (List.mem_cons_of_mem _ h')
    · rcases List.mem_cons.mp (ih (max a y)) with h' | h'
      · rw [h', h]
        exact List.mem_cons_of_mem _ (List.mem_cons_self _ _)
      · exact List.mem_cons_of_mem _ (List.mem_cons_of_mem _ h')

theorem le_foldl_max (a : ℚ) (l : List ℚ) : ∀ y ∈ l, y ≤ l.foldl max a := by
  induction l generalizing a with
  | nil => simp
  | cons z zs ih =>
    intro y hy
    simp only [List.foldl_cons]
    rcases List.mem_cons.mp hy with h | h
    · subst h
      exact le_trans (le_max_right _ _) (le_foldl_max_init _ _)
    · exact ih (max a z) y h

theorem listMax_mem (x : ℚ) (xs : List ℚ) : listMax (x :: xs) ∈ x :: xs :=
  foldl_max_mem x xs

theorem le_listMax (x : ℚ) (xs : List ℚ) :
    ∀ y ∈ x :: xs, y ≤ listMax (x :: xs) := by
  intro y hy
  rcases List.mem_cons.mp hy with h | h
  · subst h
    exact le_foldl_max_init y xs
  · exact le_foldl_max x xs y h

/-- A JSON value, as written by the structured-snapshot export. -/
inductive Json where
  | jnull
  | jstr (s : String)
  | jnum (q : ℚ)
  | jarr (l : List Json)
  | jobj (l : List (String × Json))

/-- Serialization of one scalar field value. -/
def pyValToJson : PyVal → Json
  | .vNone => .jnull
  | .vStr s => .jstr s
  | .vInt n => .jnum n

/-- Parse one scalar field value back; integral JSON numbers come back as
integers, as `json.load` restores them. -/
def jsonToPyVal : Json → Option PyVal
  | .jnull => some .vNone
  | .jstr s => some (.vStr s)
  | .jnum q => if q.den = 1 then some (.vInt q.num) else none
  | _ => none

/-- Serialization of the optional normalized price. -/
def priceToJson : Option ℚ → Json
  | none => .jnull
  | some q => .jnum q

/-- Parse the optional normalized price back. -/
def jsonToPrice : Json → Option (Option ℚ)
  | .jnull => some none
  | .jnum q => some (some q)
  | _ => none

/-- Serialization of one uniform record: the array-of-objects entry written
by `json.dump`, with all seven fields. -/
def recToJson (r : Rec) : Json :=
  .jobj [("platform", .jstr r.platform), ("name", pyValToJson r.name),
    ("price", pyValToJson r.price), ("minPrice", priceToJson r.minPrice),
    ("moq", pyValToJson r.moq), ("supplier", pyValToJson r.supplier),
    ("url", pyValToJson r.url)]

/-- Parse one snapshot entry back into a uniform record. -/
def jsonToRec : Json → Option Rec
  | .jobj [("platform", .jstr pl), ("name", jn), ("price", jp),
      ("minPrice", jm), ("moq", jq), ("supplier", js), ("url", ju)] =>
    match jsonToPyVal jn, jsonToPyVal jp, jsonToPrice jm,
        jsonToPyVal jq, jsonToPyVal js, jsonToPyVal ju with
    | some n, some p, some m, some q, some s, some u =>
      some ⟨pl, n, p, m, q, s, u⟩
    | _, _, _, _, _, _ => none
  | _ => none

/-- The full structured snapshot: one entry per merged record, in order. -/
def jsonExport (merged : List Rec) : Json :=
  .jarr (merged.map recToJson)

/-- Parse a list of snapshot entries. -/
def jsonToRecList : List Json → Option (List Rec)
  | [] => some []
  | j :: js =>
    match jsonToRec j, jsonToRecList js with
    | some r, some rs => some (r :: rs)
    | _, _ => none

/-- Re-parse a full snapshot artifact. -/
def parseSnapshot : Json → Option (List Rec)
  | .jarr l => jsonToRecList l
  | _ => none

/-- What `main` does after the aggregation loop: an explicit no-results
outcome when the merged collection is empty (reporting and both exports are
skipped), otherwise the sorted collection together with the display
truncation (30 rows plus an "...and N more" count) and the snapshot. -/
inductive Outcome where
  | noResults
  | report (sorted : List Rec) (displayRows : List Rec) (moreCount : ℕ)
      (snapshot : Json)

/-- The tail of `main` from the empty check onwards. -/
def mainAfterFetch (merged : List Rec) : Outcome :=
  if merged.isEmpty then .noResults
  else
    let sorted := sortRecs merged
    .report sorted (sorted.take 30) (sorted.length - 30) (jsonExport sorted)

theorem pyValToJson_roundtrip (v : PyVal) :
    jsonToPyVal (pyValToJson v) = some v := by
  cases v with
  | vNone => rfl
  | vStr s => rfl
  | vInt n => simp [pyValToJson, jsonToPyVal, Rat.den_intCast, Rat.num_intCast]

theorem priceToJson_roundtrip (m : Option ℚ) :
    jsonToPrice (priceToJson m) = some m := by
  cases m <;> rfl

theorem recToJson_roundtrip (r : Rec) : jsonToRec (recToJson r) = some r := by
  cases r
  simp [recToJson, jsonToRec, pyValToJson_roundtrip, priceToJson_roundtrip]

theorem pyFloat_nonneg (tok : List Char) (q : ℚ) (h : pyFloat tok = some q) :
    0 ≤ q := by
  cases hp : pyFloatParts tok with
  | none => rw [pyFloat, hp] at h; simp at h
  | some p =>
    obtain ⟨a, b, k⟩ := p
    rw [pyFloat_eval tok a b k hp] at h
    rw [← Option.some_inj.mp h]
    positivity

theorem parse_min_price_nonneg (v : PyVal) (q : ℚ)
    (h : parse_min_price v = .ok (some q)) : 0 ≤ q := by
  unfold parse_min_price at h
  split at h
  · simp at h
  · split at h
    · rename_i tok hd
      split at h
      · rename_i q' hf
        have : q' = q := by simpa using h
        exact this ▸ pyFloat_nonneg tok q' hf
      · simp at h
    · split at h
      · rename_i tok hb
        split at h
        · rename_i q' hf
          have hq : q' * CNY_TO_USD = q := by simpa using h
          have h14 : (0 : ℚ) ≤ CNY_TO_USD := by norm_num [CNY_TO_USD]
          rw [← hq]
          exact mul_nonneg (pyFloat_nonneg tok q' hf) h14
        · simp at h
      · simp at h

/-- Inversion of a successful normalization: the record is exactly the
field-aliased one, with the extracted price. -/
theorem normalizeItem_ok (plat : String) (item : RawItem) (r : Rec)
    (h : normalizeItem plat item = .ok r) :
    ∃ mp, parse_min_price (itemGetD item "price" (.vStr "")) = .ok mp ∧
      r = { platform := plat
            name := pyOr (itemGet item "productName")
              (pyOr (itemGet item "title") (.vStr ""))
            price := itemGetD item "price" (.vStr "")
            minPrice := mp
            moq := pyOr (itemGet item "moq")
              (pyOr (itemGet item "minOrder") sentinel)
            supplier := pyOr (itemGet item "supplierNa")
              (pyOr (itemGet item "seller") sentinel)
            url := pyOr (itemGet item "productUrl")
              (pyOr (itemGet item "url") (.vStr "")) } := by
  unfold normalizeItem at h
  split at h
  · exact absurd h (by simp)
  · rename_i mp hmp
    exact ⟨mp, hmp, (Option.some.injEq .. ▸ by simpa using h.symm)⟩

/-- C3 (counterexample): the text `"$1.2.3"` contains the currency symbol
immediately followed by the decimal number `1.2`, yet the extractor does not
return `1.2`: the greedy digits-and-dot token is `"1.2.3"`, which `float`
rejects, so the call raises `ValueError` instead of returning a value. -/
theorem claim_C3_counterexample :
    ("$1.2.3" = "$" ++ "1.2" ++ ".3") ∧
    pyFloat "1.2".data = some ((1 : ℚ) + (2 : ℚ) / (10 : ℚ) ^ 1) ∧
    parse_min_price (.vStr "$1.2.3") = .exn .valueError :=
  ⟨rfl, pyFloat_eval _ 1 2 1 (by decide), by decide⟩

/-- C3 (amended): after comma-stripping, the extractor takes the first
currency-marked maximal digits-and-dot run, and when that token is a
well-formed decimal literal returns its value unconverted; a malformed token
raises `ValueError`. With no currency-marked run, the first bare maximal
digits-and-dot run is taken and its value, when well formed, is multiplied by
the conversion constant `0.14`. Only the first match governs, so the range
string `"$5-$8"` normalizes to its lower bound `5`. -/
theorem claim_C3_first_match_extraction (s : String) :
    (∀ tok q, findDollarTok (stripCommas s.data) = some tok →
      pyFloat tok = some q → parse_min_price (.vStr s) = .ok (some q)) ∧
    (findDollarTok (stripCommas s.data) = none →
      ∀ tok q, findBareTok (stripCommas s.data) = some tok →
        pyFloat tok = some q →
        parse_min_price (.vStr s) = .ok (some (q * CNY_TO_USD))) ∧
    (∀ tok, findDollarTok (stripCommas s.data) = some tok →
      pyFloat tok = none → parse_min_price (.vStr s) = .exn .valueError) ∧
    parse_min_price (.vStr "$5-$8") = .ok (some 5) := by
  refine ⟨?_, ?_, ?_, ?_⟩
  · intro tok q hd hf
    have hs : s ≠ "" := by
      intro he
      subst he
      simp [stripCommas, findDollarTok] at hd
    exact parse_min_price_dollar (.vStr s) tok q (by simp [truthy, hs]) hd hf
  · intro hd tok q hb hf
    have hs : s ≠ "" := by
      intro he
      subst he
      simp [stripCommas, findBareTok] at hb
    exact parse_min_price_bare (.vStr s) tok q (by simp [truthy, hs]) hd hb hf
  · intro tok hd hf
    have hs : s ≠ "" := by
      intro he
      subst he
      simp [stripCommas, findDollarTok] at hd
    exact parse_min_price_dollar_bad (.vStr s) tok (by simp [truthy, hs]) hd hf
  · have h : pyFloat "5".data = some ((5 : ℚ) + (0 : ℚ) / (10 : ℚ) ^ 0) :=
      pyFloat_eval _ 5 0 0 (by decide)
    rw [parse_min_price_dollar (.vStr "$5-$8") "5".data _ (by decide) (by decide) h]
    norm_num

theorem claim_C3_witness :
    parse_min_price (.vStr "$12.50") =
      .ok (some ((12 : ℚ) + (50 : ℚ) / (10 : ℚ) ^ 2)) :=
  (claim_C3_first_match_extraction "$12.50").1 "12.50".data _ (by decide)
    (pyFloat_eval _ 12 50 2 (by decide))

/-- C4: the claim says the extractor never fails, but the code raises: on the
input `"."` the bare-number pattern matches the token `"."`, and Python
`float(".")` raises `ValueError`, which propagates out of `parse_min_price`. -/
theorem claim_C4_extractor_raises :
    parse_min_price (.vStr ".") = .exn .valueError ∧
    parse_min_price (.vStr "1.2.3") = .exn .valueError := by
  exact ⟨by decide, by decide⟩

/-- C5: the claim says normalization succeeds for every raw item, but a raw
item whose price text is `"."` makes `parse_min_price` raise `ValueError`
inside the normalization loop, so no record is produced. -/
theorem claim_C5_normalizer_raises :
    normalizeItem "Yiwugo" [("price", PyVal.vStr ".")] = .exn .valueError := by
  decide

/-- Every price present in a normalized record is non-negative: the extracted
tokens carry no sign, and the conversion constant is positive. -/
theorem normalizeItem_minPrice_nonneg (plat : String) (item : RawItem)
    (r : Rec) (q : ℚ) (hok : normalizeItem plat item = .ok r)
    (hq : r.minPrice = some q) : 0 ≤ q := by
  obtain ⟨mp, hparse, hr⟩ := normalizeItem_ok plat item r hok
  have : mp = some q := by rw [hr] at hq; exact hq
  exact parse_min_price_nonneg _ q (this ▸ hparse)

/-- A CPython `float` result: a finite value, or the saturated infinity that
`float()` returns for a decimal string beyond the IEEE-double range (no
exception is raised on overflow: `float("9"*400)` is `inf`). -/
inductive PyFloatSat where
  | fin (q : ℚ)
  | inf
deriving DecidableEq

/-- The exact saturation threshold of CPython's string-to-float conversion:
the largest double is `2^1024 - 2^971`, and round-to-nearest-even sends every
value of at least `2^1024 - 2^970` (the midpoint to `2^1024`) to infinity. -/
def FLOAT_OVERFLOW_BOUND : ℚ := 2 ^ 1024 - 2 ^ 970

/-- Saturate a non-negative exact decimal value the way `float()` does. -/
def satOfRat (q : ℚ) : PyFloatSat :=
  if FLOAT_OVERFLOW_BOUND ≤ q then .inf else .fin q

/-- `float(tok)` with IEEE overflow saturation: the refinement of `pyFloat`
that keeps track of the values on which CPython returns `inf`. -/
def pyFloatSat (tok : List Char) : Option PyFloatSat :=
  (pyFloat tok).map satOfRat

/-- Multiplication by the conversion constant on a saturated value:
`inf * 0.14` is `inf` in Python. -/
def satMulCNY : PyFloatSat → PyFloatSat
  | .inf => .inf
  | .fin q => .fin (q * CNY_TO_USD)

/-- `parse_min_price` under the saturating `float` model: identical control
flow, tracking where a present result is infinite rather than finite. -/
def parse_min_price_sat (raw : PyVal) : PyResult (Option PyFloatSat) :=
  if truthy raw = false then .ok none
  else
    match findDollarTok (stripCommas (pyStr raw).data) with
    | some tok =>
      match pyFloatSat tok with
      | some w => .ok (some w)
      | none => .exn .valueError
    | none =>
      match findBareTok (stripCommas (pyStr raw).data) with
      | some tok =>
        match pyFloatSat tok with
        | some w => .ok (some (satMulCNY w))
        | none => .exn .valueError
      | none => .ok none

/-- Evaluation rule for the bare-number branch of the saturating extractor. -/
theorem parse_min_price_sat_bare (raw : PyVal) (tok : List Char) (w : PyFloatSat)
    (ht : truthy raw = true)
    (hd : findDollarTok (stripCommas (pyStr raw).data) = none)
    (hb : findBareTok (stripCommas (pyStr raw).data) = some tok)
    (hf : pyFloatSat tok = some w) :
    parse_min_price_sat raw = .ok (some (satMulCNY w)) := by
  unfold parse_min_price_sat
  rw [ht]
  simp only [Bool.true_eq_false, if_false, hd, hb, hf]

/-- A price string of four hundred nines: its value exceeds the double range,
so CPython's `float()` returns `inf` for it. -/
def nines400 : String := String.mk (List.replicate 400 '9')

/-- The value of four hundred nines is far beyond the double range: the
threshold is below `2^1024`, which is below `8^400 = 2^1200`, which is below
`10^400 - 1`. -/
theorem nines400_overflows :
    FLOAT_OVERFLOW_BOUND ≤ ((10 ^ 400 - 1 : ℕ) : ℚ) + (0 : ℚ) / (10 : ℚ) ^ 0 := by
  unfold FLOAT_OVERFLOW_BOUND
  have hcast : ((10 ^ 400 - 1 : ℕ) : ℚ) = (10 : ℚ) ^ 400 - 1 := by
    have h1 : (1 : ℕ) ≤ 10 ^ 400 := Nat.one_le_pow _ _ (by norm_num)
    push_cast [h1]
    ring
  have h2 : (2 : ℚ) ^ 1024 ≤ 2 ^ 1200 := by
    apply pow_le_pow_right₀ (by norm_num)
    norm_num
  have h3 : (2 : ℚ) ^ 1200 ≤ 10 ^ 400 - 1 := by
    have h8 : (2 : ℚ) ^ 1200 = 8 ^ 400 := by
      rw [show (8 : ℚ) = 2 ^ 3 by norm_num, ← pow_mul]
    rw [h8]
    have hnat : (8 : ℕ) ^ 400 + 1 ≤ 10 ^ 400 :=
      Nat.succ_le_of_lt (Nat.pow_lt_pow_left (by norm_num) (by norm_num))
    have hq := (Nat.cast_le (α := ℚ)).mpr hnat
    push_cast at hq
    linarith
  have h4 : (2 : ℚ) ^ 1024 - 2 ^ 970 ≤ 2 ^ 1024 := sub_le_self _ (by positivity)
  rw [hcast]
  have h5 : (0 : ℚ) / (10 : ℚ) ^ 0 = 0 := zero_div _
  rw [h5]
  linarith

set_option maxRecDepth 4000 in
/-- C7 (counterexample): the claim says a present `normalizedPriceUsd` is
always finite, but on the raw item `{"price": "9"*400}` the extracted value
saturates: `float("9"*400)` is `inf` and `inf * 0.14` is `inf`, so the
program produces a record whose present normalized price is not finite. -/
theorem claim_C7_counterexample :
    parse_min_price_sat (itemGetD [("price", PyVal.vStr nines400)] "price"
      (.vStr "")) = .ok (some .inf) := by
  have hget : itemGetD [("price", PyVal.vStr nines400)] "price" (.vStr "") =
      .vStr nines400 := rfl
  rw [hget]
  have hparts : pyFloatParts nines400.data = some (10 ^ 400 - 1, 0, 0) := by
    decide
  have hf : pyFloat nines400.data =
      some (((10 ^ 400 - 1 : ℕ) : ℚ) + (0 : ℚ) / (10 : ℚ) ^ 0) :=
    pyFloat_eval _ _ _ _ hparts
  have hsat : pyFloatSat nines400.data = some .inf := by
    rw [pyFloatSat, hf]
    simp only [Option.map_some']
    unfold satOfRat
    rw [if_pos nines400_overflows]
  have h := parse_min_price_sat_bare (.vStr nines400) nines400.data .inf
    (by decide) (by decide) (by decide) hsat
  simpa [satMulCNY] using h

/-- C7 (amended): a present normalized price is always non-negative; under
the saturating `float` model it is moreover finite and below the overflow
threshold except when the extracted decimal value reaches that threshold, in
which case it is the saturated infinity. -/
theorem claim_C7_nonneg_finite_unless_overflow :
    (∀ plat item r q, normalizeItem plat item = .ok r →
      r.minPrice = some q → 0 ≤ q) ∧
    (∀ v w, parse_min_price_sat v = .ok (some w) →
      w = .inf ∨ ∃ q, w = .fin q ∧ 0 ≤ q ∧ q < FLOAT_OVERFLOW_BOUND) := by
  constructor
  · exact fun plat item r q hok hq =>
      normalizeItem_minPrice_nonneg plat item r q hok hq
  · intro v w h
    unfold parse_min_price_sat at h
    split at h
    · simp at h
    · split at h
      · rename_i tok hd
        split at h
        · rename_i w' hf
          have hww : w' = w := by simpa using h
          rw [pyFloatSat] at hf
          cases hq : pyFloat tok with
          | none => rw [hq] at hf; simp at hf
          | some q0 =>
            rw [hq] at hf
            simp only [Option.map_some', Option.some_inj] at hf
            rw [← hww, ← hf]
            unfold satOfRat
            by_cases hb : FLOAT_OVERFLOW_BOUND ≤ q0
            · rw [if_pos hb]
              exact Or.inl rfl
            · rw [if_neg hb]
              exact Or.inr ⟨q0, rfl, pyFloat_nonneg tok q0 hq, not_le.mp hb⟩
        · simp at h
      · split at h
        · rename_i tok hb
          split at h
          · rename_i w' hf
            have hww : satMulCNY w' = w := by simpa using h
            rw [pyFloatSat] at hf
            cases hq : pyFloat tok with
            | none => rw [hq] at hf; simp at hf
            | some q0 =>
              rw [hq] at hf
              simp only [Option.map_some', Option.some_inj] at hf
              have hn : 0 ≤ q0 := pyFloat_nonneg tok q0 hq
              rw [← hww, ← hf]
              unfold satOfRat
              by_cases hov : FLOAT_OVERFLOW_BOUND ≤ q0
              · rw [if_pos hov]
                exact Or.inl rfl
              · rw [if_neg hov]
                refine Or.inr ⟨q0 * CNY_TO_USD, rfl, ?_, ?_⟩
                · exact mul_nonneg hn (by norm_num [CNY_TO_USD])
                · exact lt_of_le_of_lt
                    (mul_le_of_le_one_right hn (by norm_num [CNY_TO_USD]))
                    (not_le.mp hov)
          · simp at h
        · simp at h

def wItem7 : RawItem := [("price", PyVal.vStr "$3")]

def wRec7 : Rec :=
  { platform := "Yiwugo", name := .vStr "", price := .vStr "$3",
    minPrice := some ((3 : ℚ) + (0 : ℚ) / (10 : ℚ) ^ 0),
    moq := sentinel, supplier := sentinel, url := .vStr "" }

theorem claim_C7_witness : (0 : ℚ) ≤ (3 : ℚ) + (0 : ℚ) / (10 : ℚ) ^ 0 := by
  refine claim_C7_nonneg_finite_unless_overflow.1 "Yiwugo" wItem7 wRec7 _ ?_ rfl
  have h : pyFloat "3".data = some ((3 : ℚ) + (0 : ℚ) / (10 : ℚ) ^ 0) :=
    pyFloat_eval _ 3 0 0 (by decide)
  have hp : parse_min_price (itemGetD wItem7 "price" (.vStr "")) =
      .ok (some ((3 : ℚ) + (0 : ℚ) / (10 : ℚ) ^ 0)) :=
    parse_min_price_dollar _ "3".data _ (by decide) (by decide) h
  unfold normalizeItem
  rw [hp]
  rfl

/-- The adjacency relation required of the final order. -/
def adjOk (a b : Rec) : Prop :=
  (a.minPrice.isSome ∧ b.minPrice = none) ∨
    (∃ x y, a.minPrice = some x ∧ b.minPrice = some y ∧ x ≤ y) ∨
    (a.minPrice = none ∧ b.minPrice = none)

theorem adjOk_of_keyLeB (a b : Rec) (h : keyLeB a b = true) : adjOk a b := by
  unfold keyLeB sortKey at h
  unfold adjOk
  cases ha : a.minPrice with
  | none =>
    cases hb : b.minPrice with
    | none => exact Or.inr (Or.inr ⟨rfl, rfl⟩)
    | some y => rw [ha, hb] at h; simp at h
  | some x =>
    cases hb : b.minPrice with
    | none => exact Or.inl (by simp [ha, hb])
    | some y =>
      rw [ha, hb] at h
      simp at h
      exact Or.inr (Or.inl ⟨x, y, rfl, rfl, h⟩)

/-- C1: after aggregation of a non-empty merged collection, the final order
places present prices (ascending) before absent ones, adjacent-pairwise, and
the sort is stable: it is a permutation in which every class of records with
an equal sort key (equal present prices, or both prices absent) keeps its
original append order. -/
theorem claim_C1_sort_law_and_stability (l : List Rec) (_hne : l ≠ []) :
    List.Chain' adjOk (sortRecs l) ∧
    (sortRecs l).Perm l ∧
    (∀ k : Bool × ℚ, (sortRecs l).filter (fun r => decide (sortKey r = k)) =
      l.filter (fun r => decide (sortKey r = k))) := by
  refine ⟨?_, sortRecs_perm l, fun k => filter_sortRecs l k⟩
  exact List.Chain'.imp (fun a b hab => adjOk_of_keyLeB a b hab)
    (chain'_sortRecs l)

def wRecA : Rec :=
  { platform := "Yiwugo", name := .vStr "a", price := .vStr "",
    minPrice := some 2, moq := sentinel, supplier := sentinel, url := .vStr "" }

def wRecB : Rec :=
  { platform := "DHgate", name := .vStr "b", price := .vStr "",
    minPrice := none, moq := sentinel, supplier := sentinel, url := .vStr "" }

def wRecC : Rec :=
  { platform := "Made-in-China", name := .vStr "c", price := .vStr "",
    minPrice := some 1, moq := sentinel, supplier := sentinel, url := .vStr "" }

theorem claim_C1_witness : (sortRecs [wRecA, wRecB, wRecC]).Perm [wRecA, wRecB, wRecC] :=
  (claim_C1_sort_law_and_stability [wRecA, wRecB, wRecC] (by decide)).2.1

/-- C2: the aggregation loop is total (it returns a pair instead of raising):
the merged collection is exactly the concatenation, in registry order, of the
records of the sources whose `run_scraper` call succeeded (each source's
internal order preserved), and every failing source surfaces exactly its
error as a per-source diagnostic. -/
theorem claim_C2_failure_isolation (runner : String → PyResult (List RawItem))
    (_hfail : ∃ k ∈ ACTOR_KEYS, ∃ e, run_scraper runner k = .exn e)
    (_hsucc : ∃ k ∈ ACTOR_KEYS, ∃ rs, run_scraper runner k = .ok rs) :
    (aggregate runner).1 = ACTOR_KEYS.flatMap (contribution runner) ∧
    (aggregate runner).2 = ACTOR_KEYS.filterMap (errorOf runner) ∧
    (∀ k rs, run_scraper runner k = .ok rs → contribution runner k = rs) ∧
    (∀ k e, run_scraper runner k = .exn e →
      contribution runner k = [] ∧ errorOf runner k = some (k, e)) := by
  refine ⟨?_, ?_, ?_, ?_⟩
  · rw [aggregate, aggregateOver_eq]
  · rw [aggregate, aggregateOver_eq]
  · intro k rs hk
    unfold contribution
    rw [hk]
  · intro k e hk
    unfold contribution errorOf
    rw [hk]
    exact ⟨rfl, rfl⟩

/-- A runner for which one source fails and the others return no items. -/
def wRunner2 : String → PyResult (List RawItem) :=
  fun k => if k = "dhgate" then .exn .fetchError else .ok []

theorem claim_C2_witness :
    (aggregate wRunner2).1 = ACTOR_KEYS.flatMap (contribution wRunner2) :=
  (claim_C2_failure_isolation wRunner2
    ⟨"dhgate", by decide, .fetchError, rfl⟩ ⟨"yiwugo", by decide, [], rfl⟩).1

/-- C6: the explicit no-results outcome is produced exactly when the merged
collection is empty; in that outcome no summary, no display rows and no
export artifact exist (the constructor carries none), and otherwise the run
always proceeds to reporting and both exports. -/
theorem claim_C6_empty_short_circuit (merged : List Rec) :
    mainAfterFetch merged = .noResults ↔ merged = [] := by
  unfold mainAfterFetch
  by_cases h : merged = []
  · subst h
    simp
  · simp [h, List.isEmpty_iff]

/-- C8: the per-platform summary reports the no-results line for a platform
with no records, sentinel statistics for one with records but no priced
records, and otherwise the statistics are the true minimum, maximum and
arithmetic mean of the (then nonempty) list of present prices, so no
division by zero nor empty-list minimum or maximum is ever taken. -/
theorem claim_C8_summary_statistics (merged : List Rec) (plat : String) :
    (platformSummary merged plat = .noResults ↔ platItems merged plat = []) ∧
    (∀ c st, platformSummary merged plat = .line c st →
      c = (platItems merged plat).length ∧
      (st = none ↔ platPrices merged plat = [])) ∧
    (∀ c lo hi avg, platformSummary merged plat = .line c (some (lo, hi, avg)) →
      0 < (platPrices merged plat).length ∧
      avg = (platPrices merged plat).sum / ((platPrices merged plat).length : ℚ) ∧
      lo ∈ platPrices merged plat ∧
      (∀ x ∈ platPrices merged plat, lo ≤ x) ∧
      hi ∈ platPrices merged plat ∧
      (∀ x ∈ platPrices merged plat, x ≤ hi)) := by
  unfold platformSummary
  by_cases hi : (platItems merged plat).isEmpty
  · rw [if_pos hi]
    have he : platItems merged plat = [] := List.isEmpty_iff.mp hi
    exact ⟨⟨fun _ => he, fun _ => rfl⟩, fun c st hcs => by simp at hcs,
      fun c lo hi avg hcs => by simp at hcs⟩
  · rw [if_neg hi]
    have he : platItems merged plat ≠ [] := fun h => hi (by simp [h])
    refine ⟨⟨fun hcs => by simp at hcs, fun h => absurd h he⟩, ?_, ?_⟩
    · intro c st hcs
      rw [PlatSummary.line.injEq] at hcs
      refine ⟨hcs.1.symm, ?_⟩
      rw [← hcs.2]
      by_cases hp : (platPrices merged plat).isEmpty
      · simp [hp, List.isEmpty_iff.mp hp]
      · simp only [if_neg hp]
        exact ⟨fun h => by simp at h, fun h => absurd h (fun hc => hp (by simp [h]))⟩
    · intro c lo hi avg hcs
      rw [PlatSummary.line.injEq] at hcs
      by_cases hp : (platPrices merged plat).isEmpty
      · rw [if_pos hp] at hcs
        exact absurd hcs.2.symm (by simp)
      · rw [if_neg hp] at hcs
        have hcs2 := hcs.2
        rw [Option.some_inj] at hcs2
        simp only [Prod.mk.injEq] at hcs2
        obtain ⟨h1, h2, h3⟩ := hcs2
        cases hl : platPrices merged plat with
        | nil => exact absurd hl (fun h => hp (by simp [h]))
        | cons x xs =>
          rw [hl] at h1 h2 h3
          refine ⟨by simp, by rw [← h3], ?_, ?_, ?_, ?_⟩
          · rw [← h1]; exact listMin_mem x xs
          · rw [← h1]; exact listMin_le x xs
          · rw [← h2]; exact listMax_mem x xs
          · rw [← h2]; exact le_listMax x xs

def wMerged8 : List Rec := [wRecA]

theorem claim_C8_witness : 0 < (platPrices wMerged8 "Yiwugo").length := by
  have hpi : platItems wMerged8 "Yiwugo" = [wRecA] := by decide
  have hpp : platPrices wMerged8 "Yiwugo" = [2] := by decide
  refine ((claim_C8_summary_statistics wMerged8 "Yiwugo").2.2 1 2 2 2 ?_).1
  unfold platformSummary
  rw [hpi, hpp]
  norm_num [listMin, listMax]

theorem jsonToRecList_map (rs : List Rec) :
    jsonToRecList (rs.map recToJson) = some rs := by
  induction rs with
  | nil => rfl
  | cons r rs ih => simp [jsonToRecList, recToJson_roundtrip, ih]

/-- C9: re-parsing the structured snapshot of any merged collection restores
every record with all seven fields intact, for collections of any length —
in particular beyond the 30-row display truncation, which never affects the
snapshot. -/
theorem claim_C9_export_roundtrip (merged : List Rec) :
    parseSnapshot (jsonExport merged) = some merged := by
  unfold parseSnapshot jsonExport
  exact jsonToRecList_map merged

theorem contribution_flatMap_erase
    (runner : String → PyResult (List RawItem)) (k : String)
    (hc : contribution runner k = []) (ks : List String) :
    ks.flatMap (contribution runner) =
      (ks.filter (fun x => x ≠ k)).flatMap (contribution runner) := by
  induction ks with
  | nil => rfl
  | cons x xs ih =>
    by_cases hx : x = k
    · subst hx
      simp [List.flatMap_cons, hc, List.filter_cons, ih]
    · simp [List.flatMap_cons, List.filter_cons, hx, ih]

/-- C10: a source whose runner succeeds with zero items normalizes to zero
records, contributes nothing to the merged collection, and has no per-source
error recorded — an error is recorded for a source exactly when its
`run_scraper` call raises. -/
theorem claim_C10_empty_success_no_error
    (runner : String → PyResult (List RawItem)) (k : String)
    (_hk : k ∈ ACTOR_KEYS) (h : runner k = .ok []) :
    run_scraper runner k = .ok [] ∧
    (∀ e, (k, e) ∉ (aggregate runner).2) ∧
    (aggregate runner).1 =
      (ACTOR_KEYS.filter (fun x => x ≠ k)).flatMap (contribution runner) := by
  have hrs : run_scraper runner k = .ok [] := by
    unfold run_scraper
    rw [h]
    rfl
  refine ⟨hrs, ?_, ?_⟩
  · intro e he
    rw [aggregate, aggregateOver_eq] at he
    obtain ⟨k', _, hk'⟩ := List.mem_filterMap.mp he
    unfold errorOf at hk'
    rcases hrs' : run_scraper runner k' with rs | e'
    · rw [hrs'] at hk'
      simp at hk'
    · rw [hrs'] at hk'
      have : k' = k ∧ e' = e := by simpa using hk'
      rw [this.1, hrs] at hrs'
      simp at hrs'
  · rw [aggregate, aggregateOver_eq]
    exact contribution_flatMap_erase runner k (by unfold contribution; rw [hrs]) _

/-- A runner for which every source succeeds with zero items. -/
def wRunner10 : String → PyResult (List RawItem) := fun _ => .ok []

theorem claim_C10_witness : run_scraper wRunner10 "yiwugo" = .ok [] :=
  (claim_C10_empty_success_no_error wRunner10 "yiwugo" (by decide) rfl).1

end PriceComp
